import Mathlib

/-!
Verification of the fitting-and-classification core of `database.py`
(`DataProcessor.process_test_data`).

The embedding below translates the numeric content of `process_test_data`:

* the Selector loop (lines 159-170): for each of the four training columns
  `y1..y4`, scan all ideal-function columns, computing the sklearn mean
  squared error against each, and keep the column of strictly smallest MSE
  (initial minimum is `float('inf')`, initial best is `None`);
* the Classifier loop (lines 173-185): for each test row `(x, y)`, look up
  each chosen ideal column's value at the row labelled `x`, take the
  absolute deviation, compare it against `sqrt(2)` times line 181's stored
  bound, and keep the fit of strictly smallest deviation
  (initial minimum is `float('inf')`, initial best is `None`).
  Line 181's bound `abs(training_data[y] - ideal_functions_df[func]).max()`
  subtracts a RangeIndex-indexed Series from an `x`-indexed Series, so
  pandas aligns on labels: the bound is the maximum of the label-aligned
  absolute differences (`alignedBound`), NaN when no training label
  `0..N-1` equals a grid label — not the positional maximum the spec
  prescribes (`maxAbsList`); the two coincide exactly when the grid is
  `0..N-1`.  The loop logic is therefore modelled twice: over `Fit`
  (abstract rational stored bound, for claims about the loop logic) and
  over `AFit` (line 181's aligned, possibly-NaN bound, for the pipeline);
* the result list: one record `{x, y, delta_y, ideal_func_no}` per test row,
  where `delta_y` is the final minimum (`float('inf')` when nothing was
  eligible, modelled as `⊤ : WithTop ℚ`) and `ideal_func_no` is
  `idx + 1` for the winning fit or `None`.

Real values are modelled as rationals; `float('inf')` is modelled by
`⊤ : WithTop ℚ`.  A Python exception escaping the loop (a failed `.loc`
lookup when a test `x` is not a grid label, a length mismatch inside
sklearn's `mean_squared_error`, or an absent best column) aborts the whole
call, which is modelled by `Option`: `none` means the call raised.

The irrational tolerance factor `sqrt(2)` is handled by comparing squares:
for nonnegative `d` and `m`, `d ≤ sqrt 2 * m` holds iff `d^2 ≤ 2 * m^2`;
the bridge lemma `eligB_iff_le_sqrt_two_mul` proves the equivalence against
`Real.sqrt 2`.
-/

namespace PyAssign

/-- A fit for the classification-loop logic of lines 178-184 viewed with
an abstract stored bound: the chosen ideal column's values and a rational
`max_allowed_deviation / sqrt(2)` parameter.  Claims about the loop logic
itself (argmin selection, tie-break, monotonicity in the stored bound) are
stated over this record; the end-to-end pipeline instead uses `AFit`,
whose bound is the value line 181 actually computes (possibly NaN). -/
structure Fit where
  cand : List ℚ
  maxdev : ℚ
  deriving DecidableEq

/-- One row of the result table built at line 185:
`{'x': x, 'y': y, 'delta_y': min_deviation, 'ideal_func_no': best_fit}`.
`delta_y` holds the float `min_deviation` (possibly the `float('inf')`
sentinel, i.e. `some ⊤`); `none` would model SQL NULL / Python `None`,
which the code never writes into `delta_y`.  `ideal_func_no` is `None`
(`none`) or the 1-based training-column number. -/
structure CResult where
  x : ℚ
  y : ℚ
  delta_y : Option (WithTop ℚ)
  ideal_func_no : Option ℕ
  deriving DecidableEq

/-- sklearn's `mean_squared_error(a, b) = (1/N) * Σ (a i - b i)^2`.
sklearn raises `ValueError` when the two columns have different lengths or
are empty (modelled by `none`). -/
def mseOpt (a b : List ℚ) : Option ℚ :=
  if a.length = b.length ∧ a.length ≠ 0 then
    some ((List.zipWith (fun u v => (u - v) ^ 2) a b).sum / (a.length : ℚ))
  else none

/-- The Selector's inner loop (lines 163-169) for a single training column:
`min_mse = inf; best_func = None; for col in cands: if mse < min_mse: ...`.
`idx` is the 0-based position of the head of `cands` in the full column
list.  A `ValueError` from `mean_squared_error` aborts the call (`none`). -/
def selGo (sig : List ℚ) : List (List ℚ) → ℕ → Option ℕ → WithTop ℚ →
    Option (Option ℕ × WithTop ℚ)
  | [], _, best, minMse => some (best, minMse)
  | c :: rest, idx, best, minMse =>
    match mseOpt sig c with
    | none => none
    | some m =>
      if (m : WithTop ℚ) < minMse then
        selGo sig rest (idx + 1) (some idx) (m : WithTop ℚ)
      else
        selGo sig rest (idx + 1) best minMse

/-- Best ideal column (by position) for one training column, with the
initial accumulator `best_func = None`, `min_mse = float('inf')`. -/
def sigBest (sig : List ℚ) (cands : List (List ℚ)) : Option (Option ℕ) :=
  (selGo sig cands 0 none ⊤).map Prod.fst

/-- The eligibility test of line 182, `deviation <= sqrt(2) * max_dev`,
expressed by comparing squares (both sides are nonnegative in every use:
`deviation` is an absolute value and `max_dev` a maximum of absolute
values). -/
def eligB (d m : ℚ) : Bool := decide (d ^ 2 ≤ 2 * m ^ 2)

/-- Line 180's deviation of the test row `(x, y)` from one fit:
`abs(y - ideal_functions_df.loc[x, ideal_func])`, where `p` is the grid
position of the row labelled `x`. -/
def devOf (p : ℕ) (y : ℚ) (f : Fit) : ℚ := |y - f.cand.getD p 0|

/-- The classification loop over the fits (lines 178-184):
`best_fit = None; min_deviation = inf;`
`for idx, f in enumerate(fits): if elig and deviation < min_deviation:
 min_deviation = deviation; best_fit = idx + 1`. -/
def classGo (p : ℕ) (y : ℚ) : List Fit → ℕ → Option ℕ → WithTop ℚ →
    Option ℕ × WithTop ℚ
  | [], _, best, minDev => (best, minDev)
  | f :: rest, idx, best, minDev =>
    if eligB (devOf p y f) f.maxdev = true ∧ ((devOf p y f : ℚ) : WithTop ℚ) < minDev then
      classGo p y rest (idx + 1) (some (idx + 1)) ((devOf p y f : ℚ) : WithTop ℚ)
    else
      classGo p y rest (idx + 1) best minDev

/-- Position of the first grid row labelled `x` (`DataFrame.loc` on the
`x`-index); `none` models the `KeyError` raised when `x` is not a grid
label. -/
def lookupIdx (x : ℚ) : List ℚ → Option ℕ
  | [] => none
  | v :: rest => if v = x then some 0 else (lookupIdx x rest).map (· + 1)

/-- Classification of one test row `(x, y)` against the fit list (lines
174-185).  A `KeyError` on the `.loc` lookup aborts the call. -/
def classifyPoint (xs : List ℚ) (fits : List Fit) (x y : ℚ) : Option CResult :=
  match lookupIdx x xs with
  | none => none
  | some p =>
    let r := classGo p y fits 0 none ⊤
    some ⟨x, y, some r.2, r.1⟩

/-- The `results` accumulation loop: one appended record per input row,
an exception at any row aborting the whole call with nothing produced. -/
def mapOpt (f : α → Option β) : List α → Option (List β)
  | [] => some []
  | a :: l =>
    match f a, mapOpt f l with
    | some b, some bl => some (b :: bl)
    | _, _ => none

/-- The Classifier over a batch of test rows, fits given. -/
def processTests (xs : List ℚ) (fits : List Fit) (tests : List (ℚ × ℚ)) :
    Option (List CResult) :=
  mapOpt (fun pt => classifyPoint xs fits pt.1 pt.2) tests

/-- The bound the specification prescribes for line 181 (its section 4.1:
`max_abs_deviation = max over i of |signal[i] - chosen_candidate[i]|`):
the positional elementwise maximum absolute difference.  This definition
follows the spec's words, for comparison against `alignedBound`, which is
what line 181 actually computes — the two agree exactly when the grid
labels are `0..N-1`. -/
def maxAbsList (a b : List ℚ) : ℚ :=
  (List.zipWith (fun u v => |u - v|) a b).foldl max 0

/-- The aligned absolute differences underlying line 181's
`abs(training_data[y] - ideal_functions_df[ideal_func])`:
`training_data` comes from `pd.read_sql` and carries the RangeIndex
`0..N-1`, while the ideal column is indexed by the grid labels
(`set_index('x')`), so pandas subtracts by aligning on labels.  Walking the
training column with its integer label `i`: when the rational `i` is a grid
label (at grid position `p`), the pair contributes
`|training[i] - ideal[p]|`; otherwise the aligned entry is NaN and is
dropped by the later `.max()` (skipna).  Grid labels not of the form
`0..N-1` likewise contribute only NaN entries. -/
def alignedDiffs (xs cand : List ℚ) : List ℚ → ℕ → List ℚ
  | [], _ => []
  | v :: rest, i =>
    match lookupIdx (i : ℚ) xs with
    | none => alignedDiffs xs cand rest (i + 1)
    | some p => |v - cand.getD p 0| :: alignedDiffs xs cand rest (i + 1)

/-- Line 181's stored bound, faithfully:
`abs(training_data[y] - ideal_functions_df[ideal_func]).max()` — the
maximum of the label-aligned absolute differences; when no training label
aligns with a grid label the series is all NaN and `.max()` is NaN itself,
modelled as `none`. -/
def alignedBound (sig xs cand : List ℚ) : Option ℚ :=
  match alignedDiffs xs cand sig 0 with
  | [] => none
  | d :: rest => some (rest.foldl max d)

/-- A fit as the per-row loop of lines 179-184 actually uses it: the chosen
ideal column's values and line 181's aligned bound, which may be NaN. -/
structure AFit where
  cand : List ℚ
  bound : Option ℚ
  deriving DecidableEq

/-- Line 182's test `deviation <= np.sqrt(2) * max_allowed_deviation` when
the bound may be NaN: every comparison against NaN is False, so a NaN bound
makes the fit ineligible for every point (even one of deviation 0). -/
def eligOptB (d : ℚ) (b : Option ℚ) : Bool :=
  match b with
  | none => false
  | some m => eligB d m

/-- Line 180's deviation of the test row `(x, y)` from one aligned fit. -/
def devOfA (p : ℕ) (y : ℚ) (f : AFit) : ℚ := |y - f.cand.getD p 0|

/-- The classification loop of lines 178-184 over the aligned fits, with
the same strict-improvement accumulator as `classGo`. -/
def classGoA (p : ℕ) (y : ℚ) : List AFit → ℕ → Option ℕ → WithTop ℚ →
    Option ℕ × WithTop ℚ
  | [], _, best, minDev => (best, minDev)
  | f :: rest, idx, best, minDev =>
    if eligOptB (devOfA p y f) f.bound = true ∧
        ((devOfA p y f : ℚ) : WithTop ℚ) < minDev then
      classGoA p y rest (idx + 1) (some (idx + 1)) ((devOfA p y f : ℚ) : WithTop ℚ)
    else
      classGoA p y rest (idx + 1) best minDev

/-- Classification of one test row against the aligned fits (lines
174-185); a `KeyError` on the `.loc` lookup aborts the call. -/
def classifyPointA (xs : List ℚ) (afits : List AFit) (x y : ℚ) :
    Option CResult :=
  match lookupIdx x xs with
  | none => none
  | some p =>
    let r := classGoA p y afits 0 none ⊤
    some ⟨x, y, some r.2, r.1⟩

/-- The `training_data` table: columns `x, y1, y2, y3, y4`
(`load_data` renames the training CSV's columns to exactly these). -/
structure TrainingData where
  x : List ℚ
  y1 : List ℚ
  y2 : List ℚ
  y3 : List ℚ
  y4 : List ℚ
  deriving DecidableEq

/-- The four training columns in the order of the loop `for i in range(1, 5)`. -/
def TrainingData.cols (t : TrainingData) : List (List ℚ) :=
  [t.y1, t.y2, t.y3, t.y4]

/-- The `ideal_functions` table after `set_index('x')`: its grid labels and
its value columns in iteration order. -/
structure IdealTable where
  x : List ℚ
  cols : List (List ℚ)
  deriving DecidableEq

/-- The aligned fit for training column `sig` whose chosen ideal column
sits at position `j`: its values, and line 181's aligned bound. -/
def mkAFit (sig : List ℚ) (xs : List ℚ) (cands : List (List ℚ)) (j : ℕ) :
    AFit :=
  ⟨cands.getD j [], alignedBound sig xs (cands.getD j [])⟩

/-- The per-row fit list in training-column order `y1..y4` (the zip of the
training columns with their selected ideal columns); entry `idx` is the
fit of training column `idx` with its chosen candidate.  `none` models the
`TypeError` raised at line 180 when a training column has no best ideal
column (`best_func = None`, possible only with zero ideal columns). -/
def mkAFits (t : TrainingData) (ideal : IdealTable)
    (bests : List (Option ℕ)) : Option (List AFit) :=
  mapOpt (fun sb => sb.2.map (mkAFit sb.1 ideal.x ideal.cols))
    (t.cols.zip bests)

/-- The whole of `process_test_data` after the tables are read: select a
best ideal column for each of the four training columns, then classify
every test row.  The per-row fit list (with line 181's aligned bound) is
rebuilt per row, exactly as the per-row loop of the source recomputes the
bound; a missing best column or a failed `.loc` lookup raises, aborting
the batch. -/
def processTestData (t : TrainingData) (ideal : IdealTable)
    (tests : List (ℚ × ℚ)) : Option (List CResult) :=
  match mapOpt (fun sig => sigBest sig ideal.cols) t.cols with
  | none => none
  | some bests =>
    mapOpt (fun pt =>
      match mkAFits t ideal bests with
      | none => none
      | some afits => classifyPointA ideal.x afits pt.1 pt.2) tests

/-- The database state `process_test_data` touches: it reads
`training_data` and `ideal_functions` and replaces `test_data` with the
result rows (line 188). -/
structure DB where
  training : TrainingData
  ideal : IdealTable
  testTable : Option (List CResult)
  deriving DecidableEq

/-- One invocation of `process_test_data` against a database state: compute
the result rows from the training and ideal tables, replace the
`test_data` table with them, and return them. -/
def runProcess (db : DB) (tests : List (ℚ × ℚ)) : Option (DB × List CResult) :=
  (processTestData db.training db.ideal tests).map
    (fun rs => ({ db with testTable := some rs }, rs))

/-! ## Characterization of the classification loop -/

/-- Full description of the strict-improvement argmin loop `classGo`: either
no eligible fit beats the incoming minimum and the accumulator is returned
unchanged, or the loop returns the earliest eligible fit realizing the
least eligible deviation below the incoming minimum. -/
theorem classGo_spec (p : ℕ) (y : ℚ) :
    ∀ (fits : List Fit) (idx : ℕ) (best : Option ℕ) (minDev : WithTop ℚ),
      (classGo p y fits idx best minDev = (best, minDev) ∧
        ∀ (q : ℕ) (f : Fit), fits[q]? = some f → eligB (devOf p y f) f.maxdev = true →
          ¬(((devOf p y f : ℚ) : WithTop ℚ) < minDev))
      ∨ (∃ (q : ℕ) (f : Fit), fits[q]? = some f ∧ eligB (devOf p y f) f.maxdev = true ∧
          ((devOf p y f : ℚ) : WithTop ℚ) < minDev ∧
          classGo p y fits idx best minDev
            = (some (idx + q + 1), ((devOf p y f : ℚ) : WithTop ℚ)) ∧
          (∀ (q' : ℕ) (f' : Fit), fits[q']? = some f' → eligB (devOf p y f') f'.maxdev = true →
            devOf p y f ≤ devOf p y f') ∧
          (∀ (q' : ℕ) (f' : Fit), q' < q → fits[q']? = some f' →
            eligB (devOf p y f') f'.maxdev = true →
            devOf p y f < devOf p y f')) := by
  intro fits
  induction fits with
  | nil =>
    intro idx best minDev
    left
    refine ⟨rfl, ?_⟩
    intro q f hq
    simp at hq
  | cons f0 rest ih =>
    intro idx best minDev
    by_cases h : eligB (devOf p y f0) f0.maxdev = true ∧
        ((devOf p y f0 : ℚ) : WithTop ℚ) < minDev
    · have hstep : classGo p y (f0 :: rest) idx best minDev
          = classGo p y rest (idx + 1) (some (idx + 1))
              ((devOf p y f0 : ℚ) : WithTop ℚ) := by
        simp only [classGo, if_pos h]
    -- the head is taken; recurse with the head as current best
      rcases ih (idx + 1) (some (idx + 1)) ((devOf p y f0 : ℚ) : WithTop ℚ) with
        ⟨heq, hnone⟩ | ⟨q, f, hq, hE, hlt, heq, hmin, hstrict⟩
      · right
        refine ⟨0, f0, by simp, h.1, h.2, ?_, ?_, ?_⟩
        · rw [hstep, heq]
        · intro q' f' hq' hE'
          cases q' with
          | zero =>
            simp only [List.getElem?_cons_zero, Option.some.injEq] at hq'
            subst hq'
            exact le_refl _
          | succ n =>
            simp only [List.getElem?_cons_succ] at hq'
            have hn := hnone n f' hq' hE'
            have := not_lt.mp hn
            exact WithTop.coe_le_coe.mp this
        · intro q' f' hq0 _ _
          exact absurd hq0 (Nat.not_lt_zero q')
      · right
        have hle0 : devOf p y f < devOf p y f0 := WithTop.coe_lt_coe.mp hlt
        refine ⟨q + 1, f, by simpa using hq, hE, lt_trans hlt h.2, ?_, ?_, ?_⟩
        · rw [hstep, heq]
          have e : idx + 1 + q + 1 = idx + (q + 1) + 1 := by omega
          rw [e]
        · intro q' f' hq' hE'
          cases q' with
          | zero =>
            simp only [List.getElem?_cons_zero, Option.some.injEq] at hq'
            subst hq'
            exact le_of_lt hle0
          | succ n =>
            simp only [List.getElem?_cons_succ] at hq'
            exact hmin n f' hq' hE'
        · intro q' f' hq0 hq' hE'
          cases q' with
          | zero =>
            simp only [List.getElem?_cons_zero, Option.some.injEq] at hq'
            subst hq'
            exact hle0
          | succ n =>
            simp only [List.getElem?_cons_succ] at hq'
            exact hstrict n f' (by omega) hq' hE'
    · have hstep : classGo p y (f0 :: rest) idx best minDev
          = classGo p y rest (idx + 1) best minDev := by
        simp only [classGo, if_neg h]
    -- the head is skipped
      rcases ih (idx + 1) best minDev with
        ⟨heq, hnone⟩ | ⟨q, f, hq, hE, hlt, heq, hmin, hstrict⟩
      · left
        refine ⟨by rw [hstep, heq], ?_⟩
        intro q' f' hq' hE'
        cases q' with
        | zero =>
          simp only [List.getElem?_cons_zero, Option.some.injEq] at hq'
          subst hq'
          intro hcon
          exact h ⟨hE', hcon⟩
        | succ n =>
          simp only [List.getElem?_cons_succ] at hq'
          exact hnone n f' hq' hE'
      · right
        have hlt0 : ∀ hE0 : eligB (devOf p y f0) f0.maxdev = true,
            devOf p y f < devOf p y f0 := by
          intro hE0
          have hnl : ¬(((devOf p y f0 : ℚ) : WithTop ℚ) < minDev) := fun hcon => h ⟨hE0, hcon⟩
          have : ((devOf p y f : ℚ) : WithTop ℚ) < ((devOf p y f0 : ℚ) : WithTop ℚ) :=
            lt_of_lt_of_le hlt (not_lt.mp hnl)
          exact WithTop.coe_lt_coe.mp this
        refine ⟨q + 1, f, by simpa using hq, hE, hlt, ?_, ?_, ?_⟩
        · rw [hstep, heq]
          have e : idx + 1 + q + 1 = idx + (q + 1) + 1 := by omega
          rw [e]
        · intro q' f' hq' hE'
          cases q' with
          | zero =>
            simp only [List.getElem?_cons_zero, Option.some.injEq] at hq'
            subst hq'
            exact le_of_lt (hlt0 hE')
          | succ n =>
            simp only [List.getElem?_cons_succ] at hq'
            exact hmin n f' hq' hE'
        · intro q' f' hq0 hq' hE'
          cases q' with
          | zero =>
            simp only [List.getElem?_cons_zero, Option.some.injEq] at hq'
            subst hq'
            exact hlt0 hE'
          | succ n =>
            simp only [List.getElem?_cons_succ] at hq'
            exact hstrict n f' (by omega) hq' hE'

/-! ## Characterization of the selection loop -/

/-- Full description of the strict-improvement argmin loop `selGo`: when it
returns at all (no MSE computation raised), the returned minimum is below
every candidate's MSE and below the incoming minimum, and the returned best
is either the unchanged accumulator or a candidate realizing the returned
minimum. -/
theorem selGo_spec (sig : List ℚ) :
    ∀ (cands : List (List ℚ)) (idx : ℕ) (best : Option ℕ) (minMse : WithTop ℚ)
      (b : Option ℕ) (m : WithTop ℚ),
      selGo sig cands idx best minMse = some (b, m) →
      (∀ (q : ℕ) (c : List ℚ), cands[q]? = some c →
        ∃ mc, mseOpt sig c = some mc ∧ m ≤ (mc : WithTop ℚ)) ∧
      m ≤ minMse ∧
      ((b = best ∧ m = minMse) ∨
        ∃ (q : ℕ) (c : List ℚ) (mc : ℚ), cands[q]? = some c ∧
          mseOpt sig c = some mc ∧ b = some (idx + q) ∧
          m = (mc : WithTop ℚ) ∧ (mc : WithTop ℚ) < minMse) := by
  intro cands
  induction cands with
  | nil =>
    intro idx best minMse b m h
    simp only [selGo, Option.some.injEq, Prod.mk.injEq] at h
    refine ⟨?_, ?_, ?_⟩
    · intro q c hq
      simp at hq
    · rw [h.2]
    · left
      exact ⟨h.1.symm, h.2.symm⟩
  | cons c0 rest ih =>
    intro idx best minMse b m h
    rcases hm0 : mseOpt sig c0 with _ | m0
    · rw [selGo, hm0] at h
      exact absurd h (by simp)
    · simp only [selGo, hm0] at h
      by_cases hcmp : (m0 : WithTop ℚ) < minMse
      · rw [if_pos hcmp] at h
        obtain ⟨hall, hle, hdisj⟩ := ih (idx + 1) (some idx) (m0 : WithTop ℚ) b m h
        refine ⟨?_, le_trans hle (le_of_lt hcmp), ?_⟩
        · intro q c hq
          cases q with
          | zero =>
            simp only [List.getElem?_cons_zero, Option.some.injEq] at hq
            subst hq
            exact ⟨m0, hm0, hle⟩
          | succ n =>
            simp only [List.getElem?_cons_succ] at hq
            exact hall n c hq
        · rcases hdisj with ⟨hb, hmm⟩ | ⟨q, c, mc, hq, hmse, hb, hmm, hlt⟩
          · right
            refine ⟨0, c0, m0, by simp, hm0, ?_, hmm, hcmp⟩
            rw [hb]
            norm_num
          · right
            refine ⟨q + 1, c, mc, by simpa using hq, hmse, ?_, hmm, lt_trans hlt hcmp⟩
            rw [hb]
            have e : idx + 1 + q = idx + (q + 1) := by omega
            rw [e]
      · rw [if_neg hcmp] at h
        obtain ⟨hall, hle, hdisj⟩ := ih (idx + 1) best minMse b m h
        refine ⟨?_, hle, ?_⟩
        · intro q c hq
          cases q with
          | zero =>
            simp only [List.getElem?_cons_zero, Option.some.injEq] at hq
            subst hq
            exact ⟨m0, hm0, le_trans hle (not_lt.mp hcmp)⟩
          | succ n =>
            simp only [List.getElem?_cons_succ] at hq
            exact hall n c hq
        · rcases hdisj with ⟨hb, hmm⟩ | ⟨q, c, mc, hq, hmse, hb, hmm, hlt⟩
          · left
            exact ⟨hb, hmm⟩
          · right
            refine ⟨q + 1, c, mc, by simpa using hq, hmse, ?_, hmm, hlt⟩
            rw [hb]
            have e : idx + 1 + q = idx + (q + 1) := by omega
            rw [e]

/-! ## Helper lemmas -/

/-- `mapOpt` preserves length when it succeeds. -/
theorem mapOpt_length {α β : Type} (f : α → Option β) :
    ∀ (l : List α) (bl : List β), mapOpt f l = some bl → bl.length = l.length := by
  intro l
  induction l with
  | nil =>
    intro bl h
    simp only [mapOpt, Option.some.injEq] at h
    rw [← h]
    rfl
  | cons a rest ih =>
    intro bl h
    rcases ha : f a with _ | b
    · rw [mapOpt, ha] at h
      exact absurd h (by simp)
    · rcases hrest : mapOpt f rest with _ | brest
      · rw [mapOpt, ha, hrest] at h
        exact absurd h (by simp)
      · rw [mapOpt, ha, hrest] at h
        simp only [Option.some.injEq] at h
        rw [← h]
        simp [ih brest hrest]

/-- A single raising element makes the whole `mapOpt` raise. -/
theorem mapOpt_none_of_mem {α β : Type} (f : α → Option β) :
    ∀ (l : List α) (a : α), a ∈ l → f a = none → mapOpt f l = none := by
  intro l
  induction l with
  | nil =>
    intro a ha
    exact absurd ha (List.not_mem_nil a)
  | cons a0 rest ih =>
    intro a ha hfa
    rcases List.mem_cons.mp ha with rfl | hmem
    · rw [mapOpt, hfa]
    · rw [mapOpt, ih a hmem hfa]
      cases f a0 <;> rfl

/-- Members of a successful `mapOpt` come from members of the input. -/
theorem mapOpt_mem {α β : Type} (f : α → Option β) :
    ∀ (l : List α) (bl : List β) (b : β), mapOpt f l = some bl → b ∈ bl →
      ∃ a, a ∈ l ∧ f a = some b := by
  intro l
  induction l with
  | nil =>
    intro bl b h hb
    simp only [mapOpt, Option.some.injEq] at h
    rw [← h] at hb
    exact absurd hb (List.not_mem_nil b)
  | cons a0 rest ih =>
    intro bl b h hb
    rcases ha : f a0 with _ | b0
    · rw [mapOpt, ha] at h
      exact absurd h (by simp)
    · rcases hrest : mapOpt f rest with _ | brest
      · rw [mapOpt, ha, hrest] at h
        exact absurd h (by simp)
      · rw [mapOpt, ha, hrest] at h
        simp only [Option.some.injEq] at h
        rw [← h] at hb
        rcases List.mem_cons.mp hb with rfl | hmem
        · exact ⟨a0, List.mem_cons_self a0 rest, ha⟩
        · obtain ⟨a, hal, hfa⟩ := ih brest b hrest hmem
          exact ⟨a, List.mem_cons_of_mem a0 hal, hfa⟩

/-- The `.loc` lookup fails exactly on the labels absent from the grid. -/
theorem lookupIdx_eq_none_iff (x : ℚ) :
    ∀ xs : List ℚ, lookupIdx x xs = none ↔ x ∉ xs := by
  intro xs
  induction xs with
  | nil => simp [lookupIdx]
  | cons v rest ih =>
    by_cases hv : v = x
    · subst hv
      simp [lookupIdx]
    · rw [lookupIdx, if_neg hv]
      constructor
      · intro hmap hc
        have hr : lookupIdx x rest = none := by
          cases h : lookupIdx x rest with
          | none => rfl
          | some p =>
            rw [h] at hmap
            exact absurd hmap (by simp)
        rcases List.mem_cons.mp hc with rfl | hmem
        · exact hv rfl
        · exact (ih.mp hr) hmem
      · intro hnm
        have hr : lookupIdx x rest = none :=
          ih.mpr (fun hmem => hnm (List.mem_cons_of_mem v hmem))
        rw [hr]
        rfl

/-- A `foldl max` starting point is below the fold's value. -/
theorem le_foldl_max : ∀ (l : List ℚ) (a : ℚ), a ≤ l.foldl max a := by
  intro l
  induction l with
  | nil => intro a; exact le_refl a
  | cons b rest ih =>
    intro a
    calc a ≤ max a b := le_max_left a b
    _ ≤ rest.foldl max (max a b) := ih (max a b)

/-- The stored bound of line 181 is nonnegative. -/
theorem maxAbsList_nonneg (a b : List ℚ) : 0 ≤ maxAbsList a b :=
  le_foldl_max _ 0

/-- The squared-comparison embedding of line 182's test
`deviation <= np.sqrt(2) * max_dev` agrees with the real-number
inequality whenever both sides are nonnegative. -/
theorem eligB_iff_le_sqrt_two_mul (d m : ℚ) (hd : 0 ≤ d) (hm : 0 ≤ m) :
    eligB d m = true ↔ (d : ℝ) ≤ Real.sqrt 2 * (m : ℝ) := by
  rw [eligB, decide_eq_true_iff]
  have hd' : (0 : ℝ) ≤ (d : ℝ) := by exact_mod_cast hd
  have hm' : (0 : ℝ) ≤ (m : ℝ) := by exact_mod_cast hm
  constructor
  · intro h
    have h' : (d : ℝ) ^ 2 ≤ 2 * (m : ℝ) ^ 2 := by exact_mod_cast h
    have h2 : (d : ℝ) = Real.sqrt ((d : ℝ) ^ 2) := (Real.sqrt_sq hd').symm
    rw [h2]
    have h3 : Real.sqrt ((d : ℝ) ^ 2) ≤ Real.sqrt (2 * (m : ℝ) ^ 2) :=
      Real.sqrt_le_sqrt h'
    have h4 : Real.sqrt (2 * (m : ℝ) ^ 2) = Real.sqrt 2 * (m : ℝ) := by
      rw [Real.sqrt_mul (by norm_num : (0:ℝ) ≤ 2), Real.sqrt_sq hm']
    rw [h4] at h3
    exact h3
  · intro h
    have h' : (d : ℝ) ^ 2 ≤ (Real.sqrt 2 * (m : ℝ)) ^ 2 := pow_le_pow_left₀ hd' h 2
    have h4 : (Real.sqrt 2 * (m : ℝ)) ^ 2 = 2 * (m : ℝ) ^ 2 := by
      rw [mul_pow, Real.sq_sqrt (by norm_num : (0:ℝ) ≤ 2)]
    rw [h4] at h'
    exact_mod_cast h'

/-- Inversion for a successful per-row classification. -/
theorem classifyPoint_some_inv (xs : List ℚ) (fits : List Fit) (x y : ℚ)
    (r : CResult) (h : classifyPoint xs fits x y = some r) :
    ∃ p, lookupIdx x xs = some p ∧
      r = ⟨x, y, some (classGo p y fits 0 none ⊤).2, (classGo p y fits 0 none ⊤).1⟩ := by
  cases hl : lookupIdx x xs with
  | none =>
    rw [classifyPoint, hl] at h
    exact absurd h (by simp)
  | some p =>
    rw [classifyPoint, hl] at h
    simp only [Option.some.injEq] at h
    exact ⟨p, rfl, h.symm⟩

/-- Full description of the aligned-fit classification loop `classGoA`,
the exact analogue of `classGo_spec` with the possibly-NaN bound test. -/
theorem classGoA_spec (p : ℕ) (y : ℚ) :
    ∀ (afits : List AFit) (idx : ℕ) (best : Option ℕ) (minDev : WithTop ℚ),
      (classGoA p y afits idx best minDev = (best, minDev) ∧
        ∀ (q : ℕ) (f : AFit), afits[q]? = some f →
          eligOptB (devOfA p y f) f.bound = true →
          ¬(((devOfA p y f : ℚ) : WithTop ℚ) < minDev))
      ∨ (∃ (q : ℕ) (f : AFit), afits[q]? = some f ∧
          eligOptB (devOfA p y f) f.bound = true ∧
          ((devOfA p y f : ℚ) : WithTop ℚ) < minDev ∧
          classGoA p y afits idx best minDev
            = (some (idx + q + 1), ((devOfA p y f : ℚ) : WithTop ℚ)) ∧
          (∀ (q' : ℕ) (f' : AFit), afits[q']? = some f' →
            eligOptB (devOfA p y f') f'.bound = true →
            devOfA p y f ≤ devOfA p y f') ∧
          (∀ (q' : ℕ) (f' : AFit), q' < q → afits[q']? = some f' →
            eligOptB (devOfA p y f') f'.bound = true →
            devOfA p y f < devOfA p y f')) := by
  intro afits
  induction afits with
  | nil =>
    intro idx best minDev
    left
    refine ⟨rfl, ?_⟩
    intro q f hq
    simp at hq
  | cons f0 rest ih =>
    intro idx best minDev
    by_cases h : eligOptB (devOfA p y f0) f0.bound = true ∧
        ((devOfA p y f0 : ℚ) : WithTop ℚ) < minDev
    · have hstep : classGoA p y (f0 :: rest) idx best minDev
          = classGoA p y rest (idx + 1) (some (idx + 1))
              ((devOfA p y f0 : ℚ) : WithTop ℚ) := by
        simp only [classGoA, if_pos h]
    -- the head is taken; recurse with the head as current best
      rcases ih (idx + 1) (some (idx + 1)) ((devOfA p y f0 : ℚ) : WithTop ℚ) with
        ⟨heq, hnone⟩ | ⟨q, f, hq, hE, hlt, heq, hmin, hstrict⟩
      · right
        refine ⟨0, f0, by simp, h.1, h.2, ?_, ?_, ?_⟩
        · rw [hstep, heq]
        · intro q' f' hq' hE'
          cases q' with
          | zero =>
            simp only [List.getElem?_cons_zero, Option.some.injEq] at hq'
            subst hq'
            exact le_refl _
          | succ n =>
            simp only [List.getElem?_cons_succ] at hq'
            have hn := hnone n f' hq' hE'
            have := not_lt.mp hn
            exact WithTop.coe_le_coe.mp this
        · intro q' f' hq0 _ _
          exact absurd hq0 (Nat.not_lt_zero q')
      · right
        have hle0 : devOfA p y f < devOfA p y f0 := WithTop.coe_lt_coe.mp hlt
        refine ⟨q + 1, f, by simpa using hq, hE, lt_trans hlt h.2, ?_, ?_, ?_⟩
        · rw [hstep, heq]
          have e : idx + 1 + q + 1 = idx + (q + 1) + 1 := by omega
          rw [e]
        · intro q' f' hq' hE'
          cases q' with
          | zero =>
            simp only [List.getElem?_cons_zero, Option.some.injEq] at hq'
            subst hq'
            exact le_of_lt hle0
          | succ n =>
            simp only [List.getElem?_cons_succ] at hq'
            exact hmin n f' hq' hE'
        · intro q' f' hq0 hq' hE'
          cases q' with
          | zero =>
            simp only [List.getElem?_cons_zero, Option.some.injEq] at hq'
            subst hq'
            exact hle0
          | succ n =>
            simp only [List.getElem?_cons_succ] at hq'
            exact hstrict n f' (by omega) hq' hE'
    · have hstep : classGoA p y (f0 :: rest) idx best minDev
          = classGoA p y rest (idx + 1) best minDev := by
        simp only [classGoA, if_neg h]
    -- the head is skipped
      rcases ih (idx + 1) best minDev with
        ⟨heq, hnone⟩ | ⟨q, f, hq, hE, hlt, heq, hmin, hstrict⟩
      · left
        refine ⟨by rw [hstep, heq], ?_⟩
        intro q' f' hq' hE'
        cases q' with
        | zero =>
          simp only [List.getElem?_cons_zero, Option.some.injEq] at hq'
          subst hq'
          intro hcon
          exact h ⟨hE', hcon⟩
        | succ n =>
          simp only [List.getElem?_cons_succ] at hq'
          exact hnone n f' hq' hE'
      · right
        have hlt0 : ∀ hE0 : eligOptB (devOfA p y f0) f0.bound = true,
            devOfA p y f < devOfA p y f0 := by
          intro hE0
          have hnl : ¬(((devOfA p y f0 : ℚ) : WithTop ℚ) < minDev) :=
            fun hcon => h ⟨hE0, hcon⟩
          have : ((devOfA p y f : ℚ) : WithTop ℚ)
              < ((devOfA p y f0 : ℚ) : WithTop ℚ) :=
            lt_of_lt_of_le hlt (not_lt.mp hnl)
          exact WithTop.coe_lt_coe.mp this
        refine ⟨q + 1, f, by simpa using hq, hE, hlt, ?_, ?_, ?_⟩
        · rw [hstep, heq]
          have e : idx + 1 + q + 1 = idx + (q + 1) + 1 := by omega
          rw [e]
        · intro q' f' hq' hE'
          cases q' with
          | zero =>
            simp only [List.getElem?_cons_zero, Option.some.injEq] at hq'
            subst hq'
            exact le_of_lt (hlt0 hE')
          | succ n =>
            simp only [List.getElem?_cons_succ] at hq'
            exact hmin n f' hq' hE'
        · intro q' f' hq0 hq' hE'
          cases q' with
          | zero =>
            simp only [List.getElem?_cons_zero, Option.some.injEq] at hq'
            subst hq'
            exact hlt0 hE'
          | succ n =>
            simp only [List.getElem?_cons_succ] at hq'
            exact hstrict n f' (by omega) hq' hE'

/-- Inversion for a successful per-row classification over aligned fits. -/
theorem classifyPointA_some_inv (xs : List ℚ) (afits : List AFit) (x y : ℚ)
    (r : CResult) (h : classifyPointA xs afits x y = some r) :
    ∃ p, lookupIdx x xs = some p ∧
      r = ⟨x, y, some (classGoA p y afits 0 none ⊤).2,
        (classGoA p y afits 0 none ⊤).1⟩ := by
  cases hl : lookupIdx x xs with
  | none =>
    rw [classifyPointA, hl] at h
    exact absurd h (by simp)
  | some p =>
    rw [classifyPointA, hl] at h
    simp only [Option.some.injEq] at h
    exact ⟨p, rfl, h.symm⟩

/-- Positional inversion of a successful `mapOpt`: the entry at position
`k` of the output comes from the entry at position `k` of the input. -/
theorem mapOpt_get {α β : Type} (f : α → Option β) :
    ∀ (l : List α) (bl : List β) (k : ℕ) (a : α) (b : β),
      mapOpt f l = some bl → l[k]? = some a → bl[k]? = some b →
      f a = some b := by
  intro l
  induction l with
  | nil =>
    intro bl k a b _ ha _
    simp at ha
  | cons a0 rest ih =>
    intro bl k a b h ha hb
    rcases hf : f a0 with _ | b0
    · rw [mapOpt, hf] at h
      exact absurd h (by simp)
    · rcases hr : mapOpt f rest with _ | brest
      · rw [mapOpt, hf, hr] at h
        exact absurd h (by simp)
      · rw [mapOpt, hf, hr] at h
        simp only [Option.some.injEq] at h
        rw [← h] at hb
        cases k with
        | zero =>
          simp only [List.getElem?_cons_zero, Option.some.injEq] at ha hb
          rw [← ha, ← hb]
          exact hf
        | succ n =>
          simp only [List.getElem?_cons_succ] at ha hb
          exact ih brest n a b hr ha hb

/-! ## Claim theorems -/

/-- C1: for a test point `(x, y)` whose `x` lies on the grid (at position
`p`), the classifier assigns the fit of smallest deviation among exactly
the fits whose deviation passes their own tolerance test; with no eligible
fit the point is left unassigned, and among eligible fits of equal minimal
deviation the lowest fit index wins (strictly smaller deviation is required
to displace an earlier winner). -/
theorem classifier_assigns_min_deviation_eligible
    (xs : List ℚ) (fits : List Fit) (x y : ℚ) (p : ℕ)
    (hp : lookupIdx x xs = some p) :
    ∃ r, classifyPoint xs fits x y = some r ∧
      ((∀ (q : ℕ) (f : Fit), fits[q]? = some f →
          eligB (devOf p y f) f.maxdev ≠ true) → r.ideal_func_no = none) ∧
      (∀ (q : ℕ) (f : Fit), fits[q]? = some f →
        eligB (devOf p y f) f.maxdev = true →
        ∃ (q0 : ℕ) (f0 : Fit), fits[q0]? = some f0 ∧
          eligB (devOf p y f0) f0.maxdev = true ∧
          r.ideal_func_no = some (q0 + 1) ∧
          r.delta_y = some ((devOf p y f0 : ℚ) : WithTop ℚ) ∧
          (∀ (q' : ℕ) (f' : Fit), fits[q']? = some f' →
            eligB (devOf p y f') f'.maxdev = true → devOf p y f0 ≤ devOf p y f') ∧
          (∀ (q' : ℕ) (f' : Fit), q' < q0 → fits[q']? = some f' →
            eligB (devOf p y f') f'.maxdev = true → devOf p y f0 < devOf p y f')) := by
  refine ⟨⟨x, y, some (classGo p y fits 0 none ⊤).2, (classGo p y fits 0 none ⊤).1⟩,
    by rw [classifyPoint, hp], ?_, ?_⟩
  · intro hno
    rcases classGo_spec p y fits 0 none ⊤ with ⟨heq, _⟩ |
      ⟨q0, f0, hq0, hE0, _, _, _, _⟩
    · simp only [heq]
    · exact absurd hE0 (hno q0 f0 hq0)
  · intro q f hq hE
    rcases classGo_spec p y fits 0 none ⊤ with ⟨_, hnone⟩ |
      ⟨q0, f0, hq0, hE0, _, heq, hmin, hstrict⟩
    · exact absurd (WithTop.coe_lt_top (devOf p y f)) (hnone q f hq hE)
    · refine ⟨q0, f0, hq0, hE0, ?_, ?_, hmin, hstrict⟩
      · simp only [heq]
        norm_num
      · simp only [heq]

/-- Witness for C1 at a concrete input: one fit over grid `[0]` with an
exactly matching candidate. -/
theorem classifier_assigns_min_deviation_eligible_witness :
    ∃ r, classifyPoint [0] [⟨[0], 0⟩] 0 0 = some r ∧
      ((∀ (q : ℕ) (f : Fit), [(⟨[0], 0⟩ : Fit)][q]? = some f →
          eligB (devOf 0 0 f) f.maxdev ≠ true) → r.ideal_func_no = none) ∧
      (∀ (q : ℕ) (f : Fit), [(⟨[0], 0⟩ : Fit)][q]? = some f →
        eligB (devOf 0 0 f) f.maxdev = true →
        ∃ (q0 : ℕ) (f0 : Fit), [(⟨[0], 0⟩ : Fit)][q0]? = some f0 ∧
          eligB (devOf 0 0 f0) f0.maxdev = true ∧
          r.ideal_func_no = some (q0 + 1) ∧
          r.delta_y = some ((devOf 0 0 f0 : ℚ) : WithTop ℚ) ∧
          (∀ (q' : ℕ) (f' : Fit), [(⟨[0], 0⟩ : Fit)][q']? = some f' →
            eligB (devOf 0 0 f') f'.maxdev = true → devOf 0 0 f0 ≤ devOf 0 0 f') ∧
          (∀ (q' : ℕ) (f' : Fit), q' < q0 → [(⟨[0], 0⟩ : Fit)][q']? = some f' →
            eligB (devOf 0 0 f') f'.maxdev = true → devOf 0 0 f0 < devOf 0 0 f')) :=
  classifier_assigns_min_deviation_eligible [0] [⟨[0], 0⟩] 0 0 0 (by decide)

/-- C2: when the Selector's scan over the ideal columns returns a chosen
column `j` for a training column, that column's MSE is less than or equal
to the MSE of every ideal column against the same training column. -/
theorem selector_mse_optimal (sig : List ℚ) (cands : List (List ℚ))
    (j : ℕ) (m : WithTop ℚ)
    (h : selGo sig cands 0 none ⊤ = some (some j, m)) :
    ∃ cj mj, cands[j]? = some cj ∧ mseOpt sig cj = some mj ∧
      m = (mj : WithTop ℚ) ∧
      ∀ (q : ℕ) (c : List ℚ) (mc : ℚ), cands[q]? = some c →
        mseOpt sig c = some mc → mj ≤ mc := by
  obtain ⟨hall, _, hdisj⟩ := selGo_spec sig cands 0 none ⊤ (some j) m h
  rcases hdisj with ⟨hb, _⟩ | ⟨q, c, mc, hq, hmse, hb, hmm, _⟩
  · exact absurd hb (by simp)
  · have hj : j = q := by
      simp only [Option.some.injEq] at hb
      omega
    subst hj
    refine ⟨c, mc, hq, hmse, hmm, ?_⟩
    intro q' c' mc' hq' hmse'
    obtain ⟨mc'', hm'', hle''⟩ := hall q' c' hq'
    rw [hmse'] at hm''
    have hcc : mc' = mc'' := by
      simpa using hm''
    rw [hmm] at hle''
    rw [hcc]
    exact WithTop.coe_le_coe.mp hle''

/-- Witness for C2 at a concrete input: two candidate columns, the second
an exact match of the signal. -/
theorem selector_mse_optimal_witness :
    ∃ cj mj, ([[0, 2, 4, 6], [0, 1, 2, 3]] : List (List ℚ))[1]? = some cj ∧
      mseOpt [0, 1, 2, 3] cj = some mj ∧
      ((0 : ℚ) : WithTop ℚ) = (mj : WithTop ℚ) ∧
      ∀ (q : ℕ) (c : List ℚ) (mc : ℚ),
        ([[0, 2, 4, 6], [0, 1, 2, 3]] : List (List ℚ))[q]? = some c →
        mseOpt [0, 1, 2, 3] c = some mc → mj ≤ mc :=
  selector_mse_optimal [0, 1, 2, 3] [[0, 2, 4, 6], [0, 1, 2, 3]] 1
    ((0 : ℚ) : WithTop ℚ) (by norm_num [selGo, mseOpt])

/-- C3, code bug: at the failing input (training table with grid `[9]`,
all four `y`-columns `[0]`; ideal table over the same grid `[9]` with the
single column `[0]`; test point `(9, 0)`), the spec's bound
`max over i of |signal[i] - chosen_candidate[i]|` is `0` and its
`√2`-scaled tolerance accepts the point's deviation `0`; but line 181
aligns the training Series' RangeIndex label `0` with the ideal Series'
grid label `9`, no labels coincide, the computed bound is NaN
(`alignedBound = none`), the comparison `0 <= sqrt(2) * NaN` is False, and
the pipeline leaves the point unmatched, so the tolerance used is not
`√2 × max_i |signal[i] - candidate[i]|` as the claim states. -/
theorem aligned_bound_nan_rejects_match :
    alignedBound [0] [9] [0] = none ∧
    maxAbsList [0] [0] = 0 ∧
    ((0 : ℚ) : ℝ) ≤ Real.sqrt 2 * ((maxAbsList [0] [0] : ℚ) : ℝ) ∧
    eligOptB 0 (alignedBound [0] [9] [0]) = false ∧
    processTestData ⟨[9], [0], [0], [0], [0]⟩ ⟨[9], [[0]]⟩ [(9, 0)]
      = some [⟨9, 0, some ⊤, none⟩] := by
  have hmax : maxAbsList ([0] : List ℚ) [0] = 0 := by
    norm_num [maxAbsList]
  refine ⟨?_, hmax, ?_, ?_, ?_⟩
  · norm_num [alignedBound, alignedDiffs, lookupIdx]
  · rw [hmax]
    push_cast
    rw [mul_zero]
  · norm_num [eligOptB, alignedBound, alignedDiffs, lookupIdx]
  · norm_num [processTestData, TrainingData.cols, mapOpt, sigBest, selGo,
      mseOpt, mkAFits, mkAFit, alignedBound, alignedDiffs, classifyPointA,
      lookupIdx, classGoA, eligOptB, devOfA, eligB]

/-- C4 counterexample: at a concrete unmatched test point the output
record's `delta_y` is not left unset/null — it carries the `float('inf')`
initialization sentinel (`some ⊤`), because line 185 stores `min_deviation`
unconditionally. -/
theorem unmatched_delta_not_null_counterexample :
    ∃ r, classifyPoint [0] [⟨[5], 0⟩] 0 0 = some r ∧
      r.ideal_func_no = none ∧ r.delta_y ≠ none ∧ r.delta_y = some ⊤ := by
  refine ⟨⟨0, 0, some ⊤, none⟩, ?_, rfl, by simp, rfl⟩
  norm_num [classifyPoint, lookupIdx, classGo, eligB, devOf]

/-- C4 (amended): an unmatched test point gets `assigned id = none`, and
its `delta_y` field is set to the `float('inf')` sentinel left over from
the initialization of `min_deviation` — not to null. -/
theorem unmatched_gets_inf_sentinel (xs : List ℚ) (fits : List Fit) (x y : ℚ)
    (r : CResult) (h : classifyPoint xs fits x y = some r)
    (hno : r.ideal_func_no = none) : r.delta_y = some ⊤ := by
  obtain ⟨p, hp, hr⟩ := classifyPoint_some_inv xs fits x y r h
  rcases classGo_spec p y fits 0 none ⊤ with ⟨heq, _⟩ |
    ⟨q0, f0, _, _, _, heq, _, _⟩
  · rw [hr]
    simp only [heq]
  · rw [hr] at hno
    simp only [heq] at hno
    exact absurd hno (by simp)

/-- Witness for the amended C4 at a concrete unmatched input. -/
theorem unmatched_gets_inf_sentinel_witness :
    (⟨0, 0, some ⊤, none⟩ : CResult).delta_y = some ⊤ :=
  unmatched_gets_inf_sentinel [0] [⟨[5], 0⟩] 0 0 ⟨0, 0, some ⊤, none⟩
    (by norm_num [classifyPoint, lookupIdx, classGo, eligB, devOf]) rfl

/-- C5 counterexample: a batch containing one off-grid test point (x = 5,
grid = `[0]`) between classifiable points produces no per-point results at
all — the whole call raises (`none`), so the off-grid point is not reported
per point and the remaining points are not processed. -/
theorem offgrid_aborts_batch_counterexample :
    processTestData ⟨[0], [0], [0], [0], [0]⟩ ⟨[0], [[0]]⟩ [(0, 0), (5, 0)]
      = none := by
  norm_num [processTestData, TrainingData.cols, mapOpt, sigBest, selGo, mseOpt,
    mkAFits, mkAFit, alignedBound, alignedDiffs, classifyPointA, lookupIdx,
    classGoA, eligOptB, devOfA, eligB]

/-- C5 (amended): a test point whose `x` is not a grid label makes the
`.loc` lookup raise `KeyError`, aborting the entire batch: the whole call
fails and no result is produced, neither for the bad point nor for any
other point. -/
theorem offgrid_point_aborts_whole_batch (t : TrainingData) (ideal : IdealTable)
    (tests : List (ℚ × ℚ)) (pt : ℚ × ℚ) (hmem : pt ∈ tests)
    (hx : pt.1 ∉ ideal.x) : processTestData t ideal tests = none := by
  rw [processTestData]
  cases hb : mapOpt (fun sig => sigBest sig ideal.cols) t.cols with
  | none => rfl
  | some bests =>
    apply mapOpt_none_of_mem _ tests pt hmem
    cases hf : mkAFits t ideal bests with
    | none => rfl
    | some afits =>
      have hnone := (lookupIdx_eq_none_iff pt.1 ideal.x).mpr hx
      simp only [classifyPointA, hnone]

/-- Witness for the amended C5 at a concrete input. -/
theorem offgrid_point_aborts_whole_batch_witness :
    processTestData ⟨[0], [0], [0], [0], [0]⟩ ⟨[0], [[0]]⟩ [(9, 0)] = none :=
  offgrid_point_aborts_whole_batch ⟨[0], [0], [0], [0], [0]⟩ ⟨[0], [[0]]⟩
    [(9, 0)] (9, 0) (by decide) (by decide)

/-- C6 counterexample: a training table over grid `[0]` and an ideal table
over the different grid `[9]` (equal column lengths on both sides) are
processed without any failure: the Selector — which reads only the
`y`-columns, never the grids — completes and chooses ideal column 0 for
every training column, and the whole run returns normally, one record per
test row (the record is unmatched, because line 181's label-aligned bound
is NaN here).  The Selector does not fail fast on grids that differ in
values. -/
theorem grid_value_mismatch_not_detected :
    (⟨[0], [0], [0], [0], [0]⟩ : TrainingData).x ≠ (⟨[9], [[0]]⟩ : IdealTable).x ∧
    mapOpt (fun sig => sigBest sig ([[0]] : List (List ℚ)))
        (TrainingData.cols ⟨[0], [0], [0], [0], [0]⟩)
      = some [some 0, some 0, some 0, some 0] ∧
    processTestData ⟨[0], [0], [0], [0], [0]⟩ ⟨[9], [[0]]⟩ [(9, 0)]
      = some [⟨9, 0, some ⊤, none⟩] := by
  refine ⟨by decide, ?_, ?_⟩
  · norm_num [TrainingData.cols, mapOpt, sigBest, selGo, mseOpt]
  · norm_num [processTestData, TrainingData.cols, mapOpt, sigBest, selGo,
      mseOpt, mkAFits, mkAFit, alignedBound, alignedDiffs, classifyPointA,
      lookupIdx, classGoA, eligOptB, devOfA, eligB]

/-- C6 (amended): the Selector fails when a candidate column's length
differs from the training column's length (sklearn's consistency check
raises inside the MSE computation), but it never compares grid values:
selection reads only the value columns, so two ideal tables with the same
columns and different grids select identically. -/
theorem selector_shape_check :
    (∀ (sig : List ℚ) (cands : List (List ℚ)) (c : List ℚ), c ∈ cands →
      c.length ≠ sig.length → sigBest sig cands = none) ∧
    (∀ (t : TrainingData) (i1 i2 : IdealTable), i1.cols = i2.cols →
      mapOpt (fun sig => sigBest sig i1.cols) t.cols
        = mapOpt (fun sig => sigBest sig i2.cols) t.cols) := by
  constructor
  · intro sig cands c hmem hlen
    have hnone : mseOpt sig c = none := by
      rw [mseOpt, if_neg]
      intro hc
      exact hlen (hc.1.symm)
    rw [sigBest]
    have : ∀ (cs : List (List ℚ)) (idx : ℕ) (best : Option ℕ) (minMse : WithTop ℚ),
        c ∈ cs → selGo sig cs idx best minMse = none := by
      intro cs
      induction cs with
      | nil =>
        intro idx best minMse hm
        exact absurd hm (List.not_mem_nil c)
      | cons c0 rest ih =>
        intro idx best minMse hm
        rcases List.mem_cons.mp hm with rfl | hm'
        · rw [selGo, hnone]
        · cases hm0 : mseOpt sig c0 with
          | none => rw [selGo, hm0]
          | some m0 =>
            simp only [selGo, hm0]
            by_cases hcmp : (m0 : WithTop ℚ) < minMse
            · rw [if_pos hcmp]
              exact ih _ _ _ hm'
            · rw [if_neg hcmp]
              exact ih _ _ _ hm'
    rw [this cands 0 none ⊤ hmem]
    rfl
  · intro t i1 i2 hcols
    rw [hcols]

/-- Witness for the amended C6: a candidate of length 1 against a signal of
length 2 makes selection fail. -/
theorem selector_shape_check_witness :
    sigBest [0, 0] [[1], [0, 0]] = none :=
  selector_shape_check.1 [0, 0] [[1], [0, 0]] [1] (by decide) (by decide)

/-- C7: when `process_test_data` completes, it appends exactly one result
record per input test row, however many rows go unmatched. -/
theorem output_count_eq_input_count (t : TrainingData) (ideal : IdealTable)
    (tests : List (ℚ × ℚ)) (rs : List CResult)
    (h : processTestData t ideal tests = some rs) : rs.length = tests.length := by
  rw [processTestData] at h
  cases hb : mapOpt (fun sig => sigBest sig ideal.cols) t.cols with
  | none =>
    rw [hb] at h
    exact absurd h (by simp)
  | some bests =>
    rw [hb] at h
    exact mapOpt_length _ tests rs h

/-- Witness for C7: one test row in, one result row out, on a concrete run
(one matched, one unmatched row would likewise each produce a record). -/
theorem output_count_eq_input_count_witness :
    ([⟨0, 0, some ((0 : ℚ) : WithTop ℚ), some 1⟩] : List CResult).length
      = ([((0 : ℚ), (0 : ℚ))] : List (ℚ × ℚ)).length :=
  output_count_eq_input_count ⟨[0], [0], [0], [0], [0]⟩ ⟨[0], [[0]]⟩
    [(0, 0)] [⟨0, 0, some ((0 : ℚ) : WithTop ℚ), some 1⟩]
    (by norm_num [processTestData, TrainingData.cols, mapOpt, sigBest, selGo,
      mseOpt, mkAFits, mkAFit, alignedBound, alignedDiffs, classifyPointA,
      lookupIdx, classGoA, eligOptB, devOfA, eligB])

/-- C9: `process_test_data` is a pure function of the training table, the
ideal table and the test rows, and its only write replaces the `test_data`
table, which it never reads; hence a second invocation on the state left by
a first one returns the identical results and leaves the state unchanged. -/
theorem process_idempotent (db : DB) (tests : List (ℚ × ℚ))
    (db1 : DB) (rs1 : List CResult)
    (h : runProcess db tests = some (db1, rs1)) :
    runProcess db1 tests = some (db1, rs1) := by
  rw [runProcess] at h
  cases hp : processTestData db.training db.ideal tests with
  | none =>
    rw [hp] at h
    exact absurd h (by simp)
  | some rs =>
    rw [hp] at h
    simp only [Option.map_some', Option.some.injEq, Prod.mk.injEq] at h
    obtain ⟨hdb, hrs⟩ := h
    subst hrs
    subst hdb
    rw [runProcess]
    have htr : ({ db with testTable := some rs } : DB).training = db.training := rfl
    have hid : ({ db with testTable := some rs } : DB).ideal = db.ideal := rfl
    rw [htr, hid, hp]
    rfl

/-- Witness for C9: a concrete first run, then the theorem shows the second
run reproduces its output and state. -/
theorem process_idempotent_witness :
    runProcess ⟨⟨[0], [0], [0], [0], [0]⟩, ⟨[0], [[0]]⟩,
        some [⟨0, 0, some ((0 : ℚ) : WithTop ℚ), some 1⟩]⟩ [(0, 0)]
      = some (⟨⟨[0], [0], [0], [0], [0]⟩, ⟨[0], [[0]]⟩,
          some [⟨0, 0, some ((0 : ℚ) : WithTop ℚ), some 1⟩]⟩,
        [⟨0, 0, some ((0 : ℚ) : WithTop ℚ), some 1⟩]) :=
  process_idempotent ⟨⟨[0], [0], [0], [0], [0]⟩, ⟨[0], [[0]]⟩, none⟩ [(0, 0)]
    ⟨⟨[0], [0], [0], [0], [0]⟩, ⟨[0], [[0]]⟩,
      some [⟨0, 0, some ((0 : ℚ) : WithTop ℚ), some 1⟩]⟩
    [⟨0, 0, some ((0 : ℚ) : WithTop ℚ), some 1⟩]
    (by norm_num [runProcess, processTestData, TrainingData.cols, mapOpt,
      sigBest, selGo, mseOpt, mkAFits, mkAFit, alignedBound, alignedDiffs,
      classifyPointA, lookupIdx, classGoA, eligOptB, devOfA, eligB])

/-- C10: for every row `r` of a completed run, produced from the test
point `pt` at the same batch position, the record identifies fits by
training column: the per-row fit list `afits` (`mkAFits`, the zip of
`t.cols` with the selected ideal columns) is in training-column order
`y1..y4`, so entry `j - 1` of `afits` is the fit of training column `y_j`
with whatever ideal column was chosen for it.  A non-`None`
`ideal_func_no = some j` means `1 ≤ j ≤ 4` and the fit at `afits[j-1]` —
the training column `y_j`'s fit, not an identifier of the ideal column —
matched: it is eligible at the point, its deviation is the recorded
`delta_y`, and no eligible fit has a smaller deviation.  When no fit is
eligible the row carries `None`. -/
theorem assigned_id_is_training_index (t : TrainingData) (ideal : IdealTable)
    (tests : List (ℚ × ℚ)) (rs : List CResult)
    (h : processTestData t ideal tests = some rs)
    (k : ℕ) (pt : ℚ × ℚ) (r : CResult)
    (hpt : tests[k]? = some pt) (hr : rs[k]? = some r) :
    ∃ (bests : List (Option ℕ)) (afits : List AFit) (p : ℕ),
      mapOpt (fun sig => sigBest sig ideal.cols) t.cols = some bests ∧
      mkAFits t ideal bests = some afits ∧
      afits.length = 4 ∧
      lookupIdx pt.1 ideal.x = some p ∧
      r.x = pt.1 ∧ r.y = pt.2 ∧
      (∀ j : ℕ, r.ideal_func_no = some j →
        1 ≤ j ∧ j ≤ 4 ∧
        ∃ f : AFit, afits[j - 1]? = some f ∧
          eligOptB (devOfA p pt.2 f) f.bound = true ∧
          r.delta_y = some ((devOfA p pt.2 f : ℚ) : WithTop ℚ) ∧
          ∀ (q : ℕ) (f' : AFit), afits[q]? = some f' →
            eligOptB (devOfA p pt.2 f') f'.bound = true →
            devOfA p pt.2 f ≤ devOfA p pt.2 f') ∧
      ((∀ (q : ℕ) (f : AFit), afits[q]? = some f →
          eligOptB (devOfA p pt.2 f) f.bound ≠ true) →
        r.ideal_func_no = none) := by
  rw [processTestData] at h
  cases hb : mapOpt (fun sig => sigBest sig ideal.cols) t.cols with
  | none =>
    rw [hb] at h
    exact absurd h (by simp)
  | some bests =>
    rw [hb] at h
    have hfr := mapOpt_get _ tests rs k pt r h hpt hr
    cases hA : mkAFits t ideal bests with
    | none =>
      rw [hA] at hfr
      exact absurd hfr (by simp)
    | some afits =>
      rw [hA] at hfr
      obtain ⟨p, hp, hreq⟩ :=
        classifyPointA_some_inv ideal.x afits pt.1 pt.2 r hfr
      have hA' : mapOpt (fun sb => sb.2.map (mkAFit sb.1 ideal.x ideal.cols))
          (t.cols.zip bests) = some afits := hA
      have hlen4 : afits.length = 4 := by
        have h1 := mapOpt_length _ (t.cols.zip bests) afits hA'
        have h2 := mapOpt_length _ t.cols bests hb
        have h3 : t.cols.length = 4 := rfl
        rw [h1, List.length_zip, h2, h3]
        exact min_self 4
      refine ⟨bests, afits, p, rfl, hA, hlen4, hp,
        by rw [hreq], by rw [hreq], ?_, ?_⟩
      · intro j hj
        rw [hreq] at hj
        have hj' : (classGoA p pt.2 afits 0 none ⊤).1 = some j := hj
        rcases classGoA_spec p pt.2 afits 0 none ⊤ with ⟨heq, _⟩ |
          ⟨q0, f0, hq0, hE0, _, heq, hmin, _⟩
        · rw [heq] at hj'
          exact absurd hj' (by simp)
        · rw [heq] at hj'
          simp only [Option.some.injEq] at hj'
          have hq0lt : q0 < afits.length := by
            by_contra hge
            rw [List.getElem?_eq_none (by omega)] at hq0
            exact absurd hq0 (by simp)
          have hj1 : j - 1 = q0 := by omega
          refine ⟨by omega, by omega, f0, by rw [hj1]; exact hq0, hE0, ?_, hmin⟩
          rw [hreq]
          simp only [heq]
      · intro hno
        rcases classGoA_spec p pt.2 afits 0 none ⊤ with ⟨heq, _⟩ |
          ⟨q0, f0, hq0, hE0, _, _, _, _⟩
        · rw [hreq]
          simp only [heq]
        · exact absurd hE0 (hno q0 f0 hq0)

/-- Raising the stored bound can only keep a passing deviation passing. -/
theorem eligB_mono (d m m' : ℚ) (h0 : 0 ≤ m) (hle : m ≤ m')
    (h : eligB d m = true) : eligB d m' = true := by
  rw [eligB, decide_eq_true_iff] at h ⊢
  have hp : m ^ 2 ≤ m' ^ 2 := pow_le_pow_left₀ h0 hle 2
  linarith

/-- Per-point monotonicity: with one fit's stored bound raised (candidate
column unchanged, all other fits unchanged), a point assigned to that fit
stays assigned to it. -/
theorem classifyPoint_mono (xs : List ℚ) (fits fits' : List Fit) (j : ℕ)
    (hoff : ∀ q : ℕ, q ≠ j → fits'[q]? = fits[q]?)
    (f f' : Fit) (hfj : fits[j]? = some f) (hfj' : fits'[j]? = some f')
    (hcand : f'.cand = f.cand) (hm0 : 0 ≤ f.maxdev) (hmm : f.maxdev ≤ f'.maxdev)
    (x y : ℚ) (r : CResult) (h : classifyPoint xs fits x y = some r) :
    ∃ r', classifyPoint xs fits' x y = some r' ∧
      (r.ideal_func_no = some (j + 1) → r'.ideal_func_no = some (j + 1)) := by
  obtain ⟨p, hp, hr⟩ := classifyPoint_some_inv xs fits x y r h
  refine ⟨⟨x, y, some (classGo p y fits' 0 none ⊤).2, (classGo p y fits' 0 none ⊤).1⟩,
    by rw [classifyPoint, hp], ?_⟩
  intro hno
  rw [hr] at hno
  have hno' : (classGo p y fits 0 none ⊤).1 = some (j + 1) := hno
  show (classGo p y fits' 0 none ⊤).1 = some (j + 1)
  rcases classGo_spec p y fits 0 none ⊤ with ⟨heq, _⟩ |
    ⟨q0, f0, hq0, hE0, _, heq, hmin, hstrict⟩
  · rw [heq] at hno'
    exact absurd hno' (by simp)
  · rw [heq] at hno'
    have hq0j : q0 = j := by
      simp only [Option.some.injEq] at hno'
      omega
    subst hq0j
    have hf0 : f = f0 := by
      rw [hfj] at hq0
      simpa using hq0
    subst hf0
    have hdev : devOf p y f' = devOf p y f := by
      rw [devOf, devOf, hcand]
    have hEj' : eligB (devOf p y f') f'.maxdev = true := by
      rw [hdev]
      exact eligB_mono _ _ _ hm0 hmm hE0
    rcases classGo_spec p y fits' 0 none ⊤ with ⟨_, hnone'⟩ |
      ⟨q1, f1, hq1, hE1, _, heq', hmin1, hstrict1⟩
    · exact absurd (WithTop.coe_lt_top (devOf p y f'))
        (hnone' q0 f' hfj' hEj')
    · by_cases hq1j : q1 = q0
      · subst hq1j
        rw [heq']
        simp
      · exfalso
        have hq1fits : fits[q1]? = some f1 := by
          rw [← hoff q1 hq1j]
          exact hq1
        have hle1 : devOf p y f1 ≤ devOf p y f := by
          rw [← hdev]
          exact hmin1 q0 f' hfj' hEj'
        have hge1 : devOf p y f ≤ devOf p y f1 := hmin q1 f1 hq1fits hE1
        rcases Nat.lt_trichotomy q1 q0 with hlt | hmid | hgt
        · have := hstrict q1 f1 hlt hq1fits hE1
          exact absurd hle1 (not_le.mpr this)
        · exact hq1j hmid
        · have := hstrict1 q0 f' hgt hfj' hEj'
          rw [hdev] at this
          exact absurd hge1 (not_le.mpr this)

/-- Batch monotonicity for the classification loop, by induction over the
test rows. -/
theorem processTests_mono_count (xs : List ℚ) (fits fits' : List Fit) (j : ℕ)
    (hoff : ∀ q : ℕ, q ≠ j → fits'[q]? = fits[q]?)
    (f f' : Fit) (hfj : fits[j]? = some f) (hfj' : fits'[j]? = some f')
    (hcand : f'.cand = f.cand) (hm0 : 0 ≤ f.maxdev) (hmm : f.maxdev ≤ f'.maxdev) :
    ∀ (tests : List (ℚ × ℚ)) (rs : List CResult),
      processTests xs fits tests = some rs →
      ∃ rs', processTests xs fits' tests = some rs' ∧
        rs.countP (fun r => decide (r.ideal_func_no = some (j + 1))) ≤
        rs'.countP (fun r => decide (r.ideal_func_no = some (j + 1))) := by
  intro tests
  induction tests with
  | nil =>
    intro rs h
    simp only [processTests, mapOpt, Option.some.injEq] at h
    refine ⟨[], rfl, ?_⟩
    rw [← h]
  | cons pt rest ih =>
    intro rs h
    simp only [processTests, mapOpt] at h
    cases hc : classifyPoint xs fits pt.1 pt.2 with
    | none =>
      rw [hc] at h
      exact absurd h (by simp)
    | some r0 =>
      cases hrest : mapOpt (fun pt => classifyPoint xs fits pt.1 pt.2) rest with
      | none =>
        rw [hc, hrest] at h
        exact absurd h (by simp)
      | some rl =>
        rw [hc, hrest] at h
        simp only [Option.some.injEq] at h
        obtain ⟨r0', hc', himp⟩ :=
          classifyPoint_mono xs fits fits' j hoff f f' hfj hfj' hcand hm0 hmm
            pt.1 pt.2 r0 hc
        obtain ⟨rs'', hrest', hcount⟩ := ih rl hrest
        have hrest'' : mapOpt (fun pt => classifyPoint xs fits' pt.1 pt.2) rest
            = some rs'' := hrest'
        refine ⟨r0' :: rs'', ?_, ?_⟩
        · simp only [processTests, mapOpt, hc', hrest'']
        · rw [← h]
          simp only [List.countP_cons]
          by_cases hpred : r0.ideal_func_no = some (j + 1)
          · have h2 := himp hpred
            have hp1 : (decide (r0.ideal_func_no = some (j + 1))) = true := by
              simp [hpred]
            have hp2 : (decide (r0'.ideal_func_no = some (j + 1))) = true := by
              simp [h2]
            simp only [hp1, hp2]
            omega
          · have hp0 : (decide (r0.ideal_func_no = some (j + 1))) = false := by
              simp [hpred]
            simp only [hp0]
            have : rl.countP (fun r => decide (r.ideal_func_no = some (j + 1)))
                ≤ rs''.countP (fun r => decide (r.ideal_func_no = some (j + 1)))
                  + (if (decide (r0'.ideal_func_no = some (j + 1))) = true
                      then 1 else 0) :=
              le_trans hcount (Nat.le_add_right _ _)
            simpa using this

/-- C8: holding the grid, the candidate columns, the other fits and the
test rows fixed, raising one fit's stored `max_abs_deviation` can only
(weakly) increase the number of test rows assigned to that fit. -/
theorem tolerance_monotonicity (xs : List ℚ) (fits fits' : List Fit) (j : ℕ)
    (hoff : ∀ q : ℕ, q ≠ j → fits'[q]? = fits[q]?)
    (f f' : Fit) (hfj : fits[j]? = some f) (hfj' : fits'[j]? = some f')
    (hcand : f'.cand = f.cand) (hm0 : 0 ≤ f.maxdev) (hmm : f.maxdev ≤ f'.maxdev)
    (tests : List (ℚ × ℚ)) (rs : List CResult)
    (h : processTests xs fits tests = some rs) :
    ∃ rs', processTests xs fits' tests = some rs' ∧
      rs.countP (fun r => decide (r.ideal_func_no = some (j + 1))) ≤
      rs'.countP (fun r => decide (r.ideal_func_no = some (j + 1))) :=
  processTests_mono_count xs fits fits' j hoff f f' hfj hfj' hcand hm0 hmm
    tests rs h

/-- Witness for C8: raising the single fit's stored bound from 0 to 1 keeps
the assigned count (here both counts are computable on one test row). -/
theorem tolerance_monotonicity_witness :
    ∃ rs', processTests [0] [⟨[0], 1⟩] [(0, 0)] = some rs' ∧
      ([⟨0, 0, some ((0 : ℚ) : WithTop ℚ), some 1⟩] : List CResult).countP
        (fun r => decide (r.ideal_func_no = some (0 + 1))) ≤
      rs'.countP (fun r => decide (r.ideal_func_no = some (0 + 1))) :=
  tolerance_monotonicity [0] [⟨[0], 0⟩] [⟨[0], 1⟩] 0
    (by
      intro q hq
      cases q with
      | zero => exact absurd rfl hq
      | succ n => rfl)
    ⟨[0], 0⟩ ⟨[0], 1⟩ rfl rfl rfl (le_refl 0) (by norm_num)
    [(0, 0)] [⟨0, 0, some ((0 : ℚ) : WithTop ℚ), some 1⟩]
    (by norm_num [processTests, mapOpt, classifyPoint, lookupIdx, classGo,
      eligB, devOf])

/-- Witness for C10 at a concrete matched run over grid `[0]` (where the
aligned bound is defined): the single test row matches training column 1. -/
theorem assigned_id_is_training_index_witness :
    ∃ (bests : List (Option ℕ)) (afits : List AFit) (p : ℕ),
      mapOpt (fun sig => sigBest sig ([[0]] : List (List ℚ)))
          (TrainingData.cols ⟨[0], [0], [0], [0], [0]⟩) = some bests ∧
      mkAFits ⟨[0], [0], [0], [0], [0]⟩ ⟨[0], [[0]]⟩ bests = some afits ∧
      afits.length = 4 ∧
      lookupIdx 0 [0] = some p ∧
      (⟨0, 0, some ((0 : ℚ) : WithTop ℚ), some 1⟩ : CResult).x = 0 ∧
      (⟨0, 0, some ((0 : ℚ) : WithTop ℚ), some 1⟩ : CResult).y = 0 ∧
      (∀ j : ℕ,
        (⟨0, 0, some ((0 : ℚ) : WithTop ℚ), some 1⟩ : CResult).ideal_func_no
          = some j →
        1 ≤ j ∧ j ≤ 4 ∧
        ∃ f : AFit, afits[j - 1]? = some f ∧
          eligOptB (devOfA p 0 f) f.bound = true ∧
          (⟨0, 0, some ((0 : ℚ) : WithTop ℚ), some 1⟩ : CResult).delta_y
            = some ((devOfA p 0 f : ℚ) : WithTop ℚ) ∧
          ∀ (q : ℕ) (f' : AFit), afits[q]? = some f' →
            eligOptB (devOfA p 0 f') f'.bound = true →
            devOfA p 0 f ≤ devOfA p 0 f') ∧
      ((∀ (q : ℕ) (f : AFit), afits[q]? = some f →
          eligOptB (devOfA p 0 f) f.bound ≠ true) →
        (⟨0, 0, some ((0 : ℚ) : WithTop ℚ), some 1⟩ : CResult).ideal_func_no
          = none) :=
  assigned_id_is_training_index ⟨[0], [0], [0], [0], [0]⟩ ⟨[0], [[0]]⟩
    [(0, 0)] [⟨0, 0, some ((0 : ℚ) : WithTop ℚ), some 1⟩]
    (by norm_num [processTestData, TrainingData.cols, mapOpt, sigBest, selGo,
      mseOpt, mkAFits, mkAFit, alignedBound, alignedDiffs, classifyPointA,
      lookupIdx, classGoA, eligOptB, devOfA, eligB])
    0 (0, 0) ⟨0, 0, some ((0 : ℚ) : WithTop ℚ), some 1⟩ rfl rfl

end PyAssign
